import Mathlib

/-!
Shallow embedding of the waveform-rendering core of `aaltomuoto.py`
(mtmn/tools).  Machine floats are modelled by exact rationals, NumPy
arrays by Lean lists, and fallible operations (array indexing, float
division) by `Option` / `Except String`.  Python `//` on integers is
`Int.fdiv`; Python `int()` / NumPy `astype` truncation toward zero is
`pyInt`.
-/

namespace aalto

/-- Layout constant `TITLE_HEIGHT = 25` from the source. -/
def TITLE_HEIGHT : ℤ := 25

/-- Layout constant `TIMELINE_HEIGHT = 20` from the source. -/
def TIMELINE_HEIGHT : ℤ := 20

/-- Amplitude threshold for quiet sections, `QUIET_THRESHOLD = 8`. -/
def QUIET_THRESHOLD : ℚ := 8

/-- An RGB triple. -/
abbrev Color := ℤ × ℤ × ℤ

/-- A single pixel write `(x, y, color)` on the canvas. -/
abbrev Write := ℤ × ℤ × Color

def CENTER_LINE_COLOR : Color := (25, 50, 80)

def QUIET_COLOR : Color := (40, 80, 120)

def TIMELINE_COLOR : Color := (30, 60, 100)

def TICK_COLOR : Color := (60, 120, 180)

/-- Rational division, computing through `Rat.divInt` (definitionally
reducible, unlike the `Rat.inv`-based field division; `qdiv_eq` below shows
it agrees with `/` on `ℚ`, including the `x / 0 = 0` convention). -/
def qdiv (a b : ℚ) : ℚ := Rat.divInt (a.num * b.den) (a.den * b.num)

/-- Floor of a rational, computing through integer division of the
numerator by the denominator (`qfloor_eq` below: it equals `Int.floor`). -/
def qfloor (q : ℚ) : ℤ := q.num / q.den

/-- Ceiling of a rational (`qceil_eq` below: it equals `Int.ceil`). -/
def qceil (q : ℚ) : ℤ := -qfloor (-q)

/-- Maximum of two integers by comparison (`imax_eq` below). -/
def imax (a b : ℤ) : ℤ := if a ≤ b then b else a

/-- Minimum of two integers by comparison (`imin_eq` below). -/
def imin (a b : ℤ) : ℤ := if a ≤ b then a else b

/-- Python `int(q)` / NumPy float-to-integer `astype`: truncation toward zero. -/
def pyInt (q : ℚ) : ℤ := if 0 ≤ q then qfloor q else qceil q

/-- Rounding to the nearest integer, ties up (`qround_eq` below). -/
def qround (q : ℚ) : ℤ := qfloor (q + mkRat 1 2)

/-- Conversion of an integer to NumPy `int8` (`np.array(..., dtype=np.int8)`):
two's-complement wrap-around into `[-128, 127]`. -/
def int8cast (v : ℤ) : ℤ := (v + 128) % 256 - 128

/-- The slice `raw[0::2]` (elements at even positions). -/
def sliceEvens : List ℤ → List ℤ
  | [] => []
  | [a] => [a]
  | a :: _ :: rest => a :: sliceEvens rest

/-- The slice `raw[1::2]` (elements at odd positions). -/
def sliceOdds : List ℤ → List ℤ
  | [] => []
  | [_] => []
  | _ :: b :: rest => b :: sliceOdds rest

/-- `np.maximum` on 1-D arrays, including NumPy broadcasting: equal lengths
combine elementwise; a length-1 operand broadcasts against the other; any
other length mismatch is a shape error (`none`). -/
def npMaximum (a b : List ℚ) : Option (List ℚ) :=
  if a.length = b.length then some (List.zipWith max a b)
  else if a.length = 1 then some (b.map (fun y => max (a.headD 0) y))
  else if b.length = 1 then some (a.map (fun x => max x (b.headD 0)))
  else none

/-- `extract_amplitudes` (aaltomuoto.py lines 136-142): cast the raw stream
to `int8`, split into the even-index (min) and odd-index (max) slices, cast
to float, and take `np.maximum(np.abs(mins), np.abs(maxs))`. -/
def extract_amplitudes (data : List ℤ) : Option (List ℚ) :=
  let raw := data.map int8cast
  let mins := (sliceEvens raw).map (fun (v : ℤ) => |(v : ℚ)|)
  let maxs := (sliceOdds raw).map (fun (v : ℤ) => |(v : ℚ)|)
  npMaximum mins maxs

/-- NumPy integer indexing `arr[j]`: a negative index wraps once from the
end; anything out of `[-len, len)` is an index error (`none`). -/
def npGet (arr : List ℚ) (j : ℤ) : Option ℚ :=
  if 0 ≤ j then arr.get? j.toNat
  else if 0 ≤ j + arr.length then arr.get? (j + arr.length).toNat
  else none

/-- Index `i` of `np.linspace(0, L - 1, T).astype(np.intp)`: the exact
value `i * (L-1) / (T-1)` truncated toward zero (`T = 1` yields the start
point `0`). -/
def linIdx (L T i : ℕ) : ℤ :=
  if T = 1 then 0
  else pyInt (qdiv ((i : ℚ) * ((L : ℚ) - 1)) ((T : ℚ) - 1))

/-- `resize_array` (aaltomuoto.py lines 145-150): identity fast path when
the length already matches, otherwise nearest-index lookup through
`linspace` indices. -/
def resize_array (arr : List ℚ) (T : ℕ) : Option (List ℚ) :=
  if arr.length = T then some arr
  else (List.range T).mapM (fun i => npGet arr (linIdx arr.length T i))

/-- Modelled from the spec: the Resampler index map as §4.2 words it, with
the fractional position *rounded to the nearest* valid index and clamped to
`[0, L-1]`.  Used only to compare against `resize_array`. -/
def resizeNearest (arr : List ℚ) (T : ℕ) : List ℚ :=
  (List.range T).map (fun (i : ℕ) =>
    let j : ℤ :=
      if T = 1 then 0
      else qround (qdiv ((i : ℚ) * ((arr.length : ℚ) - 1)) ((T : ℚ) - 1))
    arr.getD (imax 0 (imin j ((arr.length : ℤ) - 1))).toNat 0)

/-- The six per-band magnitudes at one sample index, in the fixed band
order sub, bass, lowmid, mid, highmid, high. -/
structure BandVals where
  sub : ℚ
  bass : ℚ
  lowmid : ℚ
  mid : ℚ
  highmid : ℚ
  high : ℚ

/-- `total = sum(band_vals.values()) + 1e-6` (line 219). -/
def totalOf (v : BandVals) : ℚ :=
  v.sub + v.bass + v.lowmid + v.mid + v.highmid + v.high + mkRat 1 1000000

/-- Red channel of the blended color: `BAND_COLORS[name][0] * (val / total)`
accumulated over the six bands (colors 20, 30, 50, 70, 120, 200). -/
def blendR (v : BandVals) : ℚ :=
  20 * qdiv v.sub (totalOf v) + 30 * qdiv v.bass (totalOf v) +
    50 * qdiv v.lowmid (totalOf v) + 70 * qdiv v.mid (totalOf v) +
    120 * qdiv v.highmid (totalOf v) + 200 * qdiv v.high (totalOf v)

/-- Green channel (colors 60, 100, 140, 180, 210, 240). -/
def blendG (v : BandVals) : ℚ :=
  60 * qdiv v.sub (totalOf v) + 100 * qdiv v.bass (totalOf v) +
    140 * qdiv v.lowmid (totalOf v) + 180 * qdiv v.mid (totalOf v) +
    210 * qdiv v.highmid (totalOf v) + 240 * qdiv v.high (totalOf v)

/-- Blue channel (colors 140, 180, 210, 230, 250, 255). -/
def blendB (v : BandVals) : ℚ :=
  140 * qdiv v.sub (totalOf v) + 180 * qdiv v.bass (totalOf v) +
    210 * qdiv v.lowmid (totalOf v) + 230 * qdiv v.mid (totalOf v) +
    250 * qdiv v.highmid (totalOf v) + 255 * qdiv v.high (totalOf v)

/-- `np.clip(x, lo, hi)`. -/
def clip (x lo hi : ℤ) : ℤ := imax lo (imin x hi)

/-- The band-color compositing step (lines 216-224): sum the band
magnitudes with the `1e-6` guard, blend the band colors by weight,
truncate to integer (`astype(np.int64)`) and clip to `[0, 255]`.  A zero
denominator would be a Python `ZeroDivisionError`. -/
def compositeColor (v : BandVals) : Except String Color :=
  if totalOf v = 0 then Except.error "ZeroDivisionError"
  else Except.ok
    (clip (pyInt (blendR v)) 0 255,
     clip (pyInt (blendG v)) 0 255,
     clip (pyInt (blendB v)) 0 255)

/-- `waveform_height = height - TIMELINE_HEIGHT - TITLE_HEIGHT` (line 172). -/
def waveformHeight (height : ℤ) : ℤ := height - TIMELINE_HEIGHT - TITLE_HEIGHT

/-- `center_y = TITLE_HEIGHT + waveform_height // 2` (line 192). -/
def centerY (height : ℤ) : ℤ := TITLE_HEIGHT + (waveformHeight height).fdiv 2

/-- `bar_height = int((amp / 127.0) * (waveform_height // 2))` (line 205). -/
def barHeight (amp : ℚ) (height : ℤ) : ℤ :=
  pyInt (qdiv amp 127 * (((waveformHeight height).fdiv 2 : ℤ) : ℚ))

/-- Modelled from the spec: `bar_height = floor((amp / 127) ×
(waveform_area_height / 2))` read with exact real division by 2.  Used only
to compare against `barHeight`. -/
def specBarHeight (amp : ℚ) (height : ℤ) : ℤ :=
  qfloor (qdiv amp 127 * qdiv ((waveformHeight height : ℤ) : ℚ) 2)

/-- The quiet-section marker writes of one column (lines 207-213): pixels
`center_y + dy` for `dy` in `range(-1, 2)`, kept only when
`0 <= y < height`, in the quiet color. -/
def quietMarkerWrites (height : ℤ) : List (ℤ × Color) :=
  [(-1 : ℤ), 0, 1].filterMap (fun dy =>
    let y := centerY height + dy
    if 0 ≤ y ∧ y < height then some (y, QUIET_COLOR) else none)

/-- Python `range(a, b)` over integers. -/
def intRange (a b : ℤ) : List ℤ :=
  (List.range (b - a).toNat).map (fun k => a + (k : ℤ))

/-- The loop indices of the tick pass that actually draw (lines 240-243):
`for i in range(int(duration / 30) + 2)` with `break` once
`i * 30 > duration`. -/
def tickIdx (d : ℚ) : List ℕ :=
  (List.range (pyInt (qdiv d 30) + 2).toNat).takeWhile
    (fun (i : ℕ) => decide ((30 * (i : ℚ)) ≤ d))

/-- The tick pass column positions (lines 240-244):
`x = int((time_sec / duration_seconds) * (width - 1))` for each drawn tick;
a zero duration is a Python `ZeroDivisionError` on the first iteration. -/
def tickPass (d : ℚ) (w : ℤ) : Except String (List ℤ) :=
  (tickIdx d).mapM (fun (i : ℕ) =>
    if d = 0 then Except.error "ZeroDivisionError"
    else Except.ok (pyInt (qdiv (30 * (i : ℚ)) d * ((w : ℚ) - 1))))

/-- The six band magnitude sequences in band order (the `band_amps` /
`resized_bands` dict, whose insertion order is sub, bass, lowmid, mid,
highmid, high). -/
structure BandArrays where
  sub : List ℚ
  bass : List ℚ
  lowmid : List ℚ
  mid : List ℚ
  highmid : List ℚ
  high : List ℚ

/-- Turn a NumPy `Option` result into the raised exception. -/
def liftO (o : Option α) (msg : String) : Except String α :=
  match o with
  | some a => Except.ok a
  | none => Except.error msg

/-- Lines 175-177: `resize_array(amps, n_samples)` for each band. -/
def resizeBands (b : BandArrays) (n : ℕ) : Except String BandArrays := do
  let s ← liftO (resize_array b.sub n) "IndexError"
  let ba ← liftO (resize_array b.bass n) "IndexError"
  let lm ← liftO (resize_array b.lowmid n) "IndexError"
  let m ← liftO (resize_array b.mid n) "IndexError"
  let hm ← liftO (resize_array b.highmid n) "IndexError"
  let hi ← liftO (resize_array b.high n) "IndexError"
  Except.ok ⟨s, ba, lm, m, hm, hi⟩

/-- Lines 216-218: `band_vals = {name: float(resized_bands[name][idx]) ...}`. -/
def bandValsAt (b : BandArrays) (idx : ℤ) : Except String BandVals := do
  let s ← liftO (npGet b.sub idx) "IndexError"
  let ba ← liftO (npGet b.bass idx) "IndexError"
  let lm ← liftO (npGet b.lowmid idx) "IndexError"
  let m ← liftO (npGet b.mid idx) "IndexError"
  let hm ← liftO (npGet b.highmid idx) "IndexError"
  let hi ← liftO (npGet b.high idx) "IndexError"
  Except.ok ⟨s, ba, lm, m, hm, hi⟩

/-- A PIL pixel-buffer store `pixels[x, y] = c`: out-of-canvas coordinates
raise an index error. -/
def checkedWrite (w h x y : ℤ) (c : Color) : Except String Write :=
  if 0 ≤ x ∧ x < w ∧ 0 ≤ y ∧ y < h then Except.ok (x, y, c)
  else Except.error "IndexError"

/-- The body of the bar pass for one column `x` (lines 202-229): look up
`amp = original_amps[idx]`, compute `bar_height`, then either draw the
3-pixel quiet marker (and `continue`) or blend the band color and draw the
vertical bar clipped to the waveform area. -/
def barColumn (origAmps : List ℚ) (rb : BandArrays) (height x : ℤ) (idx : ℤ) :
    Except String (List Write) := do
  let amp ← liftO (npGet origAmps idx) "IndexError"
  let bh := barHeight amp height
  if amp < QUIET_THRESHOLD then
    Except.ok ((quietMarkerWrites height).map (fun p => (x, p.1, p.2)))
  else do
    let v ← bandValsAt rb idx
    let c ← compositeColor v
    Except.ok ((intRange (centerY height - bh) (centerY height + bh + 1)).filterMap
      (fun y =>
        if TITLE_HEIGHT ≤ y ∧ y < TITLE_HEIGHT + waveformHeight height
        then some (x, y, c) else none))

/-- `render_waveform` (lines 161-256) as the sequence of pixel writes it
performs: band resizing, center line, per-column bars, timeline strip and
tick marks, in source order.  Title text and tick labels go through the
external font collaborator (out of scope per the spec) and the final
`img.save` encode is likewise external; negative canvas dimensions are a
PIL `ValueError`. -/
def renderWaveform (origAmps : List ℚ) (bands : BandArrays) (d : ℚ)
    (width height : ℤ) : Except String (List Write) :=
  if width < 0 ∨ height < 0 then Except.error "ValueError"
  else do
    let n := origAmps.length
    let rb ← resizeBands bands n
    let cy := centerY height
    let center ← (List.range width.toNat).mapM
      (fun (x : ℕ) => checkedWrite width height (x : ℤ) cy CENTER_LINE_COLOR)
    let bars ← (List.range width.toNat).mapM
      (fun (x : ℕ) => barColumn origAmps rb height (x : ℤ) (linIdx n width.toNat x))
    let tly := TITLE_HEIGHT + waveformHeight height
    let timeline ← (List.range width.toNat).mapM
      (fun (x : ℕ) => checkedWrite width height (x : ℤ) tly TIMELINE_COLOR)
    let cols ← tickPass d width
    let ticks ← cols.mapM (fun xc =>
      if 0 ≤ xc ∧ xc < width then
        (intRange tly (imin (tly + 5) height)).mapM
          (fun y => checkedWrite width height xc y TICK_COLOR)
      else Except.ok [])
    Except.ok (center ++ bars.flatten ++ timeline ++ ticks.flatten)

/-- A concrete six-band input (each band constantly 1 over two samples),
used in the degenerate-input scenarios. -/
def exampleBands : BandArrays :=
  ⟨[1, 1], [1, 1], [1, 1], [1, 1], [1, 1], [1, 1]⟩

/-! ### Bridge lemmas: the computable primitives agree with the Mathlib
notions. -/

theorem qdiv_eq (a b : ℚ) : qdiv a b = a / b := by
  rw [qdiv, Rat.divInt_eq_div]
  rcases eq_or_ne b 0 with rfl | hb
  · simp
  · have ha' : ((a.den : ℚ)) ≠ 0 := by
      exact_mod_cast a.den_nz
    have hb' : ((b.den : ℚ)) ≠ 0 := by
      exact_mod_cast b.den_nz
    have hbn : ((b.num : ℚ)) ≠ 0 := by
      exact_mod_cast Rat.num_ne_zero.mpr hb
    have hA : (a.num : ℚ) = a * a.den := (div_eq_iff ha').mp (Rat.num_div_den a)
    have hB : (b.num : ℚ) = b * b.den := (div_eq_iff hb').mp (Rat.num_div_den b)
    push_cast
    rw [div_eq_div_iff (by positivity) hb, hA, hB]
    ring

theorem qfloor_eq (q : ℚ) : qfloor q = ⌊q⌋ := Rat.floor_def.symm

theorem qceil_eq (q : ℚ) : qceil q = ⌈q⌉ := by
  rw [qceil, qfloor_eq, Int.floor_neg, neg_neg]

theorem imax_eq (a b : ℤ) : imax a b = max a b := (max_def a b).symm

theorem imin_eq (a b : ℤ) : imin a b = min a b := (min_def a b).symm

theorem mkRat_half : (mkRat 1 2 : ℚ) = 1 / 2 := by
  rw [Rat.mkRat_eq_divInt, Rat.divInt_eq_div]
  norm_num

theorem mkRat_eps : (mkRat 1 1000000 : ℚ) = 1 / 1000000 := by
  rw [Rat.mkRat_eq_divInt, Rat.divInt_eq_div]
  norm_num

theorem qround_eq (q : ℚ) : qround q = round q := by
  rw [qround, qfloor_eq, mkRat_half, round_eq]

theorem pyInt_eq_floor {q : ℚ} (h : 0 ≤ q) : pyInt q = ⌊q⌋ := by
  rw [pyInt, if_pos h, qfloor_eq]

/-! ### List toolkit lemmas. -/

theorem takeWhile_congr_bool {α : Type} (p q : α → Bool) (l : List α)
    (h : ∀ a ∈ l, p a = q a) : l.takeWhile p = l.takeWhile q := by
  induction l with
  | nil => rfl
  | cons a l ih =>
    rw [List.takeWhile_cons, List.takeWhile_cons, h a (by simp)]
    cases hq : q a
    · rfl
    · rw [ih (fun b hb => h b (by simp [hb]))]

theorem takeWhile_lt_range (m n : ℕ) :
    (List.range n).takeWhile (fun i => decide (i < m)) = List.range (min m n) := by
  induction n generalizing m with
  | zero => simp
  | succ n ih =>
    rw [List.range_succ_eq_map, List.takeWhile_cons]
    cases m with
    | zero => simp
    | succ m =>
      have h0 : decide ((0 : ℕ) < m + 1) = true := by simp
      rw [h0, if_pos rfl, List.takeWhile_map,
        takeWhile_congr_bool _ (fun i => decide (i < m)) _
          (fun b _ => by simp [Nat.succ_lt_succ_iff]),
        ih m, ← List.range_succ_eq_map, Nat.succ_min_succ]

theorem mapM_option_eq_some {α β : Type} (f : α → Option β) (g : α → β)
    (l : List α) (h : ∀ a ∈ l, f a = some (g a)) : l.mapM f = some (l.map g) := by
  induction l with
  | nil => rfl
  | cons a l ih =>
    rw [List.mapM_cons, h a (by simp), ih (fun b hb => h b (by simp [hb]))]
    rfl

theorem mapM_except_eq_ok {ε α β : Type} (f : α → Except ε β) (g : α → β)
    (l : List α) (h : ∀ a ∈ l, f a = Except.ok (g a)) :
    l.mapM f = Except.ok (l.map g) := by
  induction l with
  | nil => rfl
  | cons a l ih =>
    rw [List.mapM_cons, h a (by simp), ih (fun b hb => h b (by simp [hb]))]
    rfl

theorem sliceEvens_length : ∀ l : List ℤ, (sliceEvens l).length = (l.length + 1) / 2
  | [] => rfl
  | [_] => by simp [sliceEvens]
  | _ :: _ :: rest => by
    have ih := sliceEvens_length rest
    simp only [sliceEvens, List.length_cons, ih]
    omega

theorem sliceOdds_length : ∀ l : List ℤ, (sliceOdds l).length = l.length / 2
  | [] => rfl
  | [_] => by simp [sliceOdds]
  | _ :: _ :: rest => by
    have ih := sliceOdds_length rest
    simp only [sliceOdds, List.length_cons, ih]
    omega

theorem sliceEvens_getElem? : ∀ (l : List ℤ) (i : ℕ), (sliceEvens l)[i]? = l[2 * i]?
  | [], i => by simp [sliceEvens]
  | [_], 0 => rfl
  | [a], (i + 1) => by
    rw [show 2 * (i + 1) = 2 * i + 1 + 1 by ring]
    simp [sliceEvens]
  | _ :: _ :: rest, 0 => by simp [sliceEvens]
  | a :: b :: rest, (i + 1) => by
    have ih := sliceEvens_getElem? rest i
    show (a :: sliceEvens rest)[i + 1]? = (a :: b :: rest)[2 * (i + 1)]?
    rw [show 2 * (i + 1) = 2 * i + 1 + 1 by ring]
    simpa using ih

theorem sliceOdds_getElem? : ∀ (l : List ℤ) (i : ℕ), (sliceOdds l)[i]? = l[2 * i + 1]?
  | [], i => by simp [sliceOdds]
  | [_], 0 => rfl
  | [a], (i + 1) => by
    rw [show 2 * (i + 1) + 1 = 2 * i + 1 + 1 + 1 by ring]
    simp [sliceOdds]
  | _ :: _ :: rest, 0 => by simp [sliceOdds]
  | a :: b :: rest, (i + 1) => by
    have ih := sliceOdds_getElem? rest i
    show (b :: sliceOdds rest)[i + 1]? = (a :: b :: rest)[2 * (i + 1) + 1]?
    rw [show 2 * (i + 1) + 1 = 2 * i + 1 + 1 + 1 by ring]
    simpa using ih

theorem int8cast_of_inrange {v : ℤ} (h1 : -128 ≤ v) (h2 : v ≤ 127) :
    int8cast v = v := by
  unfold int8cast
  omega

theorem map_int8cast_inrange (data : List ℤ)
    (hr : ∀ v ∈ data, -128 ≤ v ∧ v ≤ 127) : data.map int8cast = data := by
  conv_rhs => rw [← List.map_id data]
  exact List.map_congr_left (fun a ha =>
    int8cast_of_inrange (hr a ha).1 (hr a ha).2)


/-! ### Claim C1 and C6: the amplitude extractor. -/

/-- C1 (amended): for every peak-pair stream of even length `2n` whose
values all lie in `[-128, 127]`, `extract_amplitudes` returns a magnitude
sequence of length `n` with `magnitude[i] = max |min[i]| |max[i]|`, and
every output value lies in `[0, 128]`.  The claimed upper bound `127` is
wrong: the pair value `-128` yields magnitude `128` (see the
counterexample `extract_amplitudes_magnitude_128`). -/
theorem extract_amplitudes_even_shape_range (data : List ℤ)
    (hr : ∀ v ∈ data, -128 ≤ v ∧ v ≤ 127) (he : data.length % 2 = 0) :
    ∃ mags : List ℚ,
      extract_amplitudes data = some mags ∧
      mags.length = data.length / 2 ∧
      (∀ i : ℕ, i < data.length / 2 →
        mags[i]? = some (max |(data.getD (2 * i) 0 : ℚ)|
          |(data.getD (2 * i + 1) 0 : ℚ)|)) ∧
      (∀ q ∈ mags, 0 ≤ q ∧ q ≤ 128) := by
  have hmap := map_int8cast_inrange data hr
  have hlenE : ((sliceEvens data).map (fun (v : ℤ) => |(v : ℚ)|)).length = data.length / 2 := by
    rw [List.length_map, sliceEvens_length]
    omega
  have hlenO : ((sliceOdds data).map (fun (v : ℤ) => |(v : ℚ)|)).length = data.length / 2 := by
    rw [List.length_map, sliceOdds_length]
  have hgetE : ∀ i : ℕ, i < data.length / 2 →
      ((sliceEvens data).map (fun (v : ℤ) => |(v : ℚ)|))[i]? =
        some |(data.getD (2 * i) 0 : ℚ)| := by
    intro i hi
    have h2i : 2 * i < data.length := by omega
    rw [List.getElem?_map, sliceEvens_getElem?, List.getElem?_eq_getElem h2i,
      Option.map_some', List.getD_eq_getElem data 0 h2i]
  have hgetO : ∀ i : ℕ, i < data.length / 2 →
      ((sliceOdds data).map (fun (v : ℤ) => |(v : ℚ)|))[i]? =
        some |(data.getD (2 * i + 1) 0 : ℚ)| := by
    intro i hi
    have h2i : 2 * i + 1 < data.length := by omega
    rw [List.getElem?_map, sliceOdds_getElem?, List.getElem?_eq_getElem h2i,
      Option.map_some', List.getD_eq_getElem data 0 h2i]
  have heq : extract_amplitudes data =
      some (List.zipWith max ((sliceEvens data).map (fun (v : ℤ) => |(v : ℚ)|))
        ((sliceOdds data).map (fun (v : ℤ) => |(v : ℚ)|))) := by
    rw [extract_amplitudes, hmap, npMaximum, if_pos (hlenE.trans hlenO.symm)]
  refine ⟨_, heq, ?_, ?_, ?_⟩
  · rw [List.length_zipWith, hlenE, hlenO, min_self]
  · intro i hi
    rw [List.getElem?_zipWith', hgetE i hi, hgetO i hi]
    rfl
  · intro q hq
    rw [List.mem_iff_getElem?] at hq
    obtain ⟨i, hqi⟩ := hq
    have hilen : i < data.length / 2 := by
      by_contra hcon
      rw [List.getElem?_eq_none] at hqi
      · exact Option.noConfusion hqi
      · rw [List.length_zipWith, hlenE, hlenO, min_self]
        omega
    rw [List.getElem?_zipWith', hgetE i hilen, hgetO i hilen] at hqi
    have h2i : 2 * i < data.length := by omega
    have h2i1 : 2 * i + 1 < data.length := by omega
    have hq1 := hr (data.getD (2 * i) 0)
      (by rw [List.getD_eq_getElem data 0 h2i]; exact List.getElem_mem h2i)
    have hq2 := hr (data.getD (2 * i + 1) 0)
      (by rw [List.getD_eq_getElem data 0 h2i1]; exact List.getElem_mem h2i1)
    have habs1 : |(data.getD (2 * i) 0 : ℚ)| ≤ 128 := by
      rw [abs_le]
      constructor
      · exact_mod_cast le_trans (by norm_num : (-128 : ℤ) ≤ -128) hq1.1
      · exact_mod_cast le_trans hq1.2 (by norm_num : (127 : ℤ) ≤ 128)
    have habs2 : |(data.getD (2 * i + 1) 0 : ℚ)| ≤ 128 := by
      rw [abs_le]
      constructor
      · exact_mod_cast le_trans (by norm_num : (-128 : ℤ) ≤ -128) hq2.1
      · exact_mod_cast le_trans hq2.2 (by norm_num : (127 : ℤ) ≤ 128)
    simp only [Option.some_bind, Option.map_some', Option.some_inj] at hqi
    rw [← hqi]
    exact ⟨le_max_of_le_left (abs_nonneg _), max_le habs1 habs2⟩

/-- C1 counterexample: `[-128, 0]` is an even-length stream with values in
`[-128, 127]`, yet its magnitude is `128`, outside the claimed `[0, 127]`. -/
theorem extract_amplitudes_magnitude_128 :
    extract_amplitudes [-128, 0] = some [128] ∧ ¬ ((128 : ℚ) ≤ 127) :=
  ⟨by decide, by decide⟩

/-- C1 witness: the amended theorem applied to the concrete stream
`[3, -7, 100, -120]`. -/
theorem extract_amplitudes_even_shape_range_witness :
    ∃ mags : List ℚ,
      extract_amplitudes [3, -7, 100, -120] = some mags ∧
      mags.length = ([3, -7, 100, -120] : List ℤ).length / 2 ∧
      (∀ i : ℕ, i < ([3, -7, 100, -120] : List ℤ).length / 2 →
        mags[i]? = some (max |(([3, -7, 100, -120] : List ℤ).getD (2 * i) 0 : ℚ)|
          |(([3, -7, 100, -120] : List ℤ).getD (2 * i + 1) 0 : ℚ)|)) ∧
      (∀ q ∈ mags, 0 ≤ q ∧ q ≤ 128) :=
  extract_amplitudes_even_shape_range [3, -7, 100, -120] (by decide) (by decide)

/-- C6 counterexample: the odd-length stream `[5]` does not fail at all
(no `MalformedInputError` exists anywhere in the code): NumPy broadcasting
of the shape-(1,) mins against the shape-(0,) maxs silently yields an empty
result. -/
theorem extract_amplitudes_odd_silent : extract_amplitudes [5] = some [] := by
  decide

/-- C6 (amended): `extract_amplitudes` performs no input validation and
never raises a `MalformedInputError` (no such error class exists).  An
odd-length stream of length 1 silently broadcasts to an empty output,
while an odd-length stream of length 5 fails with a NumPy broadcasting
shape error, not a `MalformedInputError`; out-of-range values are cast to
`int8` rather than rejected. -/
theorem extract_amplitudes_no_validation :
    (∀ v : ℤ, extract_amplitudes [v] = some []) ∧
    (∀ a b c d e : ℤ, extract_amplitudes [a, b, c, d, e] = none) := by
  constructor
  · intro v
    simp [extract_amplitudes, sliceEvens, sliceOdds, npMaximum]
  · intro a b c d e
    simp [extract_amplitudes, sliceEvens, sliceOdds, npMaximum]

/-! ### Claims C7 and C8: the resampler. -/

theorem linIdx_eq_floor (L T i : ℕ) (hL : 1 ≤ L) (hT : 1 < T) :
    linIdx L T i = ⌊((i : ℚ) * ((L : ℚ) - 1)) / ((T : ℚ) - 1)⌋ := by
  have hT' : (1 : ℚ) ≤ (T : ℚ) - 1 := by
    have : (2 : ℚ) ≤ (T : ℚ) := by exact_mod_cast hT
    linarith
  have hL' : (0 : ℚ) ≤ (L : ℚ) - 1 := by
    have : (1 : ℚ) ≤ (L : ℚ) := by exact_mod_cast hL
    linarith
  have hnum : (0 : ℚ) ≤ (i : ℚ) * ((L : ℚ) - 1) :=
    mul_nonneg (Nat.cast_nonneg i) hL'
  rw [linIdx, if_neg (by omega), qdiv_eq,
    pyInt_eq_floor (div_nonneg hnum (by linarith))]

theorem linIdx_floor_bounds (L T i : ℕ) (hL : 1 ≤ L) (hT : 1 < T) (hi : i < T) :
    0 ≤ ⌊((i : ℚ) * ((L : ℚ) - 1)) / ((T : ℚ) - 1)⌋ ∧
    (⌊((i : ℚ) * ((L : ℚ) - 1)) / ((T : ℚ) - 1)⌋).toNat < L := by
  have hT' : (1 : ℚ) ≤ (T : ℚ) - 1 := by
    have : (2 : ℚ) ≤ (T : ℚ) := by exact_mod_cast hT
    linarith
  have hL' : (0 : ℚ) ≤ (L : ℚ) - 1 := by
    have : (1 : ℚ) ≤ (L : ℚ) := by exact_mod_cast hL
    linarith
  have hnum : (0 : ℚ) ≤ (i : ℚ) * ((L : ℚ) - 1) :=
    mul_nonneg (Nat.cast_nonneg i) hL'
  have h0 : 0 ≤ ⌊((i : ℚ) * ((L : ℚ) - 1)) / ((T : ℚ) - 1)⌋ :=
    Int.floor_nonneg.mpr (div_nonneg hnum (by linarith))
  refine ⟨h0, ?_⟩
  have hiT : (i : ℚ) ≤ (T : ℚ) - 1 := by
    have : (i : ℚ) + 1 ≤ (T : ℚ) := by exact_mod_cast hi
    linarith
  have hx : ((i : ℚ) * ((L : ℚ) - 1)) / ((T : ℚ) - 1) < (L : ℚ) := by
    rw [div_lt_iff₀ (by linarith)]
    nlinarith
  have hfl : ⌊((i : ℚ) * ((L : ℚ) - 1)) / ((T : ℚ) - 1)⌋ < (L : ℤ) := by
    rw [Int.floor_lt]
    exact_mod_cast hx
  omega

/-- C7 (amended): for every non-empty input of length `L` and target
`T > 1`, `resize_array` returns a sequence of length `T` with
`output[i] = input[j]` where `j = ⌊i * (L-1) / (T-1)⌋` — the fractional
position is *truncated* (`astype`), not rounded to nearest as claimed (see
the counterexample `resize_array_ne_nearest`).  The index always lies in
`[0, L-1]`, and every output element is an element of the input. -/
theorem resize_array_trunc_index (arr : List ℚ) (T : ℕ)
    (hne : arr ≠ []) (hT : 1 < T) :
    ∃ out : List ℚ,
      resize_array arr T = some out ∧
      out.length = T ∧
      (∀ i : ℕ, i < T →
        (⌊((i : ℚ) * ((arr.length : ℚ) - 1)) / ((T : ℚ) - 1)⌋).toNat < arr.length ∧
        out[i]? = some (arr.getD
          (⌊((i : ℚ) * ((arr.length : ℚ) - 1)) / ((T : ℚ) - 1)⌋).toNat 0)) ∧
      (∀ q ∈ out, q ∈ arr) := by
  have hL : 1 ≤ arr.length := List.length_pos.mpr hne
  by_cases hcase : arr.length = T
  · refine ⟨arr, by rw [resize_array, if_pos hcase], hcase, ?_, fun q hq => hq⟩
    intro i hi
    have hTq : ((T : ℚ) - 1) ≠ 0 := by
      have : (2 : ℚ) ≤ (T : ℚ) := by exact_mod_cast hT
      intro hc
      rw [sub_eq_zero] at hc
      have hT1 : 1 = T := by exact_mod_cast hc.symm
      omega
    have hsimp : ((i : ℚ) * ((arr.length : ℚ) - 1)) / ((T : ℚ) - 1) = (i : ℚ) := by
      rw [hcase, mul_div_assoc, div_self hTq, mul_one]
    rw [hsimp, Int.floor_natCast, Int.toNat_natCast]
    have hiL : i < arr.length := by omega
    exact ⟨hiL, by rw [List.getElem?_eq_getElem hiL, List.getD_eq_getElem arr 0 hiL]⟩
  · have hmapM : (List.range T).mapM (fun i => npGet arr (linIdx arr.length T i)) =
        some ((List.range T).map (fun (i : ℕ) => arr.getD
          (⌊((i : ℚ) * ((arr.length : ℚ) - 1)) / ((T : ℚ) - 1)⌋).toNat 0)) := by
      apply mapM_option_eq_some
      intro i hi
      rw [List.mem_range] at hi
      obtain ⟨hge, hlt⟩ := linIdx_floor_bounds arr.length T i hL hT hi
      rw [linIdx_eq_floor arr.length T i hL hT, npGet, if_pos hge,
        List.get?_eq_getElem?, List.getElem?_eq_getElem hlt,
        List.getD_eq_getElem arr 0 hlt]
    refine ⟨_, by rw [resize_array, if_neg hcase]; exact hmapM, ?_, ?_, ?_⟩
    · rw [List.length_map, List.length_range]
    · intro i hi
      refine ⟨(linIdx_floor_bounds arr.length T i hL hT hi).2, ?_⟩
      rw [List.getElem?_map, List.getElem?_range hi, Option.map_some']
    · intro q hq
      rw [List.mem_map] at hq
      obtain ⟨i, hiR, hqi⟩ := hq
      rw [List.mem_range] at hiR
      have hlt := (linIdx_floor_bounds arr.length T i hL hT hiR).2
      rw [← hqi, List.getD_eq_getElem arr 0 hlt]
      exact List.getElem_mem hlt

/-- C7 counterexample: on input `[10, 20, 30]` with target 4 the code
truncates the fractional indices `[0, 2/3, 4/3, 2]` to `[0, 0, 1, 2]`,
yielding `[10, 10, 20, 30]`, while the claimed round-to-nearest map yields
`[10, 20, 20, 30]`. -/
theorem resize_array_ne_nearest :
    resize_array [10, 20, 30] 4 = some [10, 10, 20, 30] ∧
    resizeNearest [10, 20, 30] 4 = [10, 20, 20, 30] ∧
    resize_array [10, 20, 30] 4 ≠ some (resizeNearest [10, 20, 30] 4) :=
  ⟨by with_unfolding_all decide, by with_unfolding_all decide,
    by with_unfolding_all decide⟩

/-- C7 witness: the amended theorem applied to `[7, 9]` with target 3. -/
theorem resize_array_trunc_index_witness :
    ∃ out : List ℚ,
      resize_array [7, 9] 3 = some out ∧
      out.length = 3 ∧
      (∀ i : ℕ, i < 3 →
        (⌊((i : ℚ) * ((([7, 9] : List ℚ).length : ℚ) - 1)) / ((3 : ℚ) - 1)⌋).toNat <
          ([7, 9] : List ℚ).length ∧
        out[i]? = some (([7, 9] : List ℚ).getD
          (⌊((i : ℚ) * ((([7, 9] : List ℚ).length : ℚ) - 1)) / ((3 : ℚ) - 1)⌋).toNat 0)) ∧
      (∀ q ∈ out, q ∈ ([7, 9] : List ℚ)) := by
  have h := resize_array_trunc_index [7, 9] 3 (by decide) (by decide)
  exact_mod_cast h

/-- C8: for every non-empty sequence, `resize_array` with the input's own
length returns the input itself (identity fast path), and with target 1
returns the single-element sequence holding the first element. -/
theorem resize_array_identity_single (arr : List ℚ) (hne : arr ≠ []) :
    resize_array arr arr.length = some arr ∧
    resize_array arr 1 = some [arr.getD 0 0] := by
  have hL : 1 ≤ arr.length := List.length_pos.mpr hne
  constructor
  · rw [resize_array, if_pos rfl]
  · by_cases h1 : arr.length = 1
    · rw [resize_array, if_pos h1]
      match arr, h1 with
      | [a], _ => rfl
    · rw [resize_array, if_neg h1]
      have hlin : linIdx arr.length 1 0 = 0 := by rw [linIdx, if_pos rfl]
      have h0 : 0 < arr.length := by omega
      rw [show List.range 1 = [0] from rfl, List.mapM_cons, hlin, npGet,
        if_pos le_rfl, List.get?_eq_getElem?, show ((0 : ℤ)).toNat = 0 from rfl,
        List.getElem?_eq_getElem h0, List.getD_eq_getElem arr 0 h0]
      rfl

/-! ### Claim C3: the bar height. -/

/-- C3 counterexample: at `amp = 100` and the default height 350 the code
computes `int((100/127) * (305 // 2)) = 119`, while the claimed formula
`floor((100/127) × (305/2))` (real division by 2) gives 120. -/
theorem barHeight_ne_specBarHeight :
    barHeight 100 350 = 119 ∧ specBarHeight 100 350 = 120 ∧
    barHeight 100 350 ≠ specBarHeight 100 350 :=
  ⟨by with_unfolding_all decide, by with_unfolding_all decide,
    by with_unfolding_all decide⟩

/-- C3 (amended): for every integer amplitude and height of at least 45,
the half-height of the bar equals
`floor((amp × (waveform_area_height // 2)) / 127)` — the waveform-area
height is halved with *integer* division before the scaling, rather than
the claimed real halving. -/
theorem barHeight_int_halving (a : ℕ) (height : ℤ) (h45 : 45 ≤ height) :
    barHeight (a : ℚ) height =
      ((a : ℤ) * ((waveformHeight height).fdiv 2)).fdiv 127 := by
  have hwf : 0 ≤ waveformHeight height := by
    simp only [waveformHeight, TIMELINE_HEIGHT, TITLE_HEIGHT]
    omega
  have hk : 0 ≤ (waveformHeight height).fdiv 2 := Int.fdiv_nonneg hwf (by norm_num)
  set k := (waveformHeight height).fdiv 2 with hkdef
  have hkq : (0 : ℚ) ≤ ((k : ℤ) : ℚ) := by exact_mod_cast hk
  have harg : (0 : ℚ) ≤ qdiv (a : ℚ) 127 * ((k : ℤ) : ℚ) := by
    rw [qdiv_eq]
    have : (0 : ℚ) ≤ (a : ℚ) / 127 := by positivity
    exact mul_nonneg this hkq
  rw [barHeight, pyInt_eq_floor harg, qdiv_eq, div_mul_eq_mul_div]
  have hcast : ((a : ℚ) * ((k : ℤ) : ℚ)) = ((((a : ℤ) * k : ℤ)) : ℚ) := by
    push_cast
    ring
  have h127 : (127 : ℚ) = ((127 : ℕ) : ℚ) := by norm_num
  rw [hcast, h127, Rat.floor_intCast_div_natCast ((a : ℤ) * k) 127,
    Int.fdiv_eq_ediv _ (by norm_num : (0 : ℤ) ≤ 127)]
  norm_num

/-- C3 witness: the amended theorem at `amp = 100`, height 350, where the
bar half-height is 119. -/
theorem barHeight_int_halving_witness :
    barHeight ((100 : ℕ) : ℚ) 350 =
      ((100 : ℤ) * ((waveformHeight 350).fdiv 2)).fdiv 127 ∧
    ((100 : ℤ) * ((waveformHeight 350).fdiv 2)).fdiv 127 = 119 :=
  ⟨barHeight_int_halving 100 350 (by norm_num),
    by with_unfolding_all decide⟩

/-- C8 witness: the theorem applied to the concrete sequence `[3, 4]`. -/
theorem resize_array_identity_single_witness :
    resize_array [3, 4] ([3, 4] : List ℚ).length = some [3, 4] ∧
    resize_array [3, 4] 1 = some [([3, 4] : List ℚ).getD 0 0] :=
  resize_array_identity_single [3, 4] (by decide)

/-! ### Claim C4: the tick pass. -/

theorem tickIdx_eq_range (d : ℚ) (hd : 0 < d) :
    tickIdx d = List.range ((⌊d / 30⌋ + 1).toNat) := by
  have hd30 : (0 : ℚ) ≤ d / 30 := by positivity
  have hF : 0 ≤ ⌊d / 30⌋ := Int.floor_nonneg.mpr hd30
  have hpy : pyInt (qdiv d 30) = ⌊d / 30⌋ := by
    rw [qdiv_eq, pyInt_eq_floor hd30]
  have key : ∀ i : ℕ, ((30 * (i : ℚ)) ≤ d) ↔ ((i : ℤ) ≤ ⌊d / 30⌋) := by
    intro i
    rw [Int.le_floor, le_div_iff₀ (by norm_num : (0 : ℚ) < 30)]
    push_cast
    constructor <;> intro h <;> linarith
  rw [tickIdx, hpy,
    takeWhile_congr_bool _ (fun i => decide (i < (⌊d / 30⌋ + 1).toNat)) _
      (fun i _ => by
        rw [decide_eq_decide, key i]
        omega),
    takeWhile_lt_range]
  congr 1
  omega

theorem tickIdx_mem_iff (d : ℚ) (hd : 0 < d) (i : ℕ) :
    i ∈ tickIdx d ↔ (30 * (i : ℚ)) ≤ d := by
  rw [tickIdx_eq_range d hd, List.mem_range]
  have key : ((30 * (i : ℚ)) ≤ d) ↔ ((i : ℤ) ≤ ⌊d / 30⌋) := by
    rw [Int.le_floor, le_div_iff₀ (by norm_num : (0 : ℚ) < 30)]
    push_cast
    constructor <;> intro h <;> linarith
  have hF : 0 ≤ ⌊d / 30⌋ := Int.floor_nonneg.mpr (by positivity)
  rw [key]
  omega

/-- C4 (amended): for every positive duration and width of at least 1, a
tick is drawn exactly at each multiple of the 30-second interval from 0 up
to and including the duration (and at no other time), at column
`x = ⌊time / duration × (width - 1)⌋` — the column is *truncated*
(`int()`), not rounded to nearest as claimed (see the counterexample
`tickPass_trunc_ne_round`).  For duration 65 the drawn ticks are exactly
the multiples 0, 30, 60; 90 is excluded. -/
theorem tickPass_multiples_floor (d : ℚ) (w : ℤ) (hd : 0 < d) (hw : 1 ≤ w) :
    (∀ i : ℕ, i ∈ tickIdx d ↔ (30 * (i : ℚ)) ≤ d) ∧
    tickPass d w = Except.ok ((tickIdx d).map (fun (i : ℕ) =>
      ⌊((30 * (i : ℚ)) / d) * (((w : ℤ) : ℚ) - 1)⌋)) := by
  refine ⟨fun i => tickIdx_mem_iff d hd i, ?_⟩
  rw [tickPass]
  apply mapM_except_eq_ok
  intro i _
  rw [if_neg (ne_of_gt hd)]
  have harg : (0 : ℚ) ≤ qdiv (30 * (i : ℚ)) d * (((w : ℤ) : ℚ) - 1) := by
    rw [qdiv_eq]
    have h1 : (0 : ℚ) ≤ (30 * (i : ℚ)) / d := by positivity
    have h2 : (0 : ℚ) ≤ ((w : ℤ) : ℚ) - 1 := by
      have : (1 : ℚ) ≤ ((w : ℤ) : ℚ) := by exact_mod_cast hw
      linarith
    exact mul_nonneg h1 h2
  rw [pyInt_eq_floor harg, qdiv_eq]

/-- C4 counterexample: at duration 65 and width 4000 the code draws the
0:30 tick at column `int(30/65 × 3999) = 1845`, while the claimed
`round(30/65 × 3999)` is 1846. -/
theorem tickPass_trunc_ne_round :
    tickPass 65 4000 = Except.ok [0, 1845, 3691] ∧
    round (((30 : ℚ) / 65) * (4000 - 1)) = 1846 ∧
    ¬ ((1845 : ℤ) = 1846) := by
  refine ⟨by with_unfolding_all rfl, ?_, by decide⟩
  rw [← qround_eq, ← qdiv_eq]
  with_unfolding_all decide

/-- C4 witness: the amended theorem at duration 65 and width 4000; the
fourth multiple (90 s) is not drawn since `90 ≤ 65` fails. -/
theorem tickPass_multiples_floor_witness :
    ((3 : ℕ) ∈ tickIdx 65 ↔ (30 * ((3 : ℕ) : ℚ)) ≤ 65) ∧
    tickPass 65 4000 = Except.ok ((tickIdx 65).map (fun (i : ℕ) =>
      ⌊((30 * (i : ℚ)) / 65) * ((((4000 : ℤ)) : ℚ) - 1)⌋)) :=
  ⟨(tickPass_multiples_floor 65 4000 (by norm_num) (by norm_num)).1 3,
    (tickPass_multiples_floor 65 4000 (by norm_num) (by norm_num)).2⟩

/-! ### Claims C2 and C9: the band-color compositing and the quiet branch. -/

theorem clip_mem_0_255 (x : ℤ) : 0 ≤ clip x 0 255 ∧ clip x 0 255 ≤ 255 := by
  unfold clip imax imin
  split_ifs <;> omega

/-- C2: for arbitrary non-negative band magnitudes (the values reaching
the compositing step in any non-quiet column, amp above the threshold),
the denominator `total = Σ magnitudes + 1e-6` is strictly positive, the
compositing step never raises (returns `Except.ok`), and the three
resulting channels are integers in `[0, 255]` — including when all six
magnitudes are exactly zero, where the ε-guard alone keeps the division
defined (no NaN arises in the exact-rational model of the float
arithmetic). -/
theorem compositeColor_ok_inrange (v : BandVals)
    (hs : 0 ≤ v.sub) (hb : 0 ≤ v.bass) (hl : 0 ≤ v.lowmid)
    (hm : 0 ≤ v.mid) (hh : 0 ≤ v.highmid) (hi : 0 ≤ v.high) :
    0 < totalOf v ∧
    ∃ r g b : ℤ, compositeColor v = Except.ok (r, g, b) ∧
      0 ≤ r ∧ r ≤ 255 ∧ 0 ≤ g ∧ g ≤ 255 ∧ 0 ≤ b ∧ b ≤ 255 := by
  have heps : (0 : ℚ) < mkRat 1 1000000 := by
    rw [mkRat_eps]
    norm_num
  have htot : 0 < totalOf v := by
    rw [totalOf]
    linarith
  refine ⟨htot, clip (pyInt (blendR v)) 0 255, clip (pyInt (blendG v)) 0 255,
    clip (pyInt (blendB v)) 0 255, ?_, (clip_mem_0_255 _).1, (clip_mem_0_255 _).2,
    (clip_mem_0_255 _).1, (clip_mem_0_255 _).2,
    (clip_mem_0_255 _).1, (clip_mem_0_255 _).2⟩
  rw [compositeColor, if_neg (ne_of_gt htot)]

/-- C2 witness: the theorem at the all-zero band magnitudes, the edge case
where only the ε-guard keeps the denominator positive. -/
theorem compositeColor_ok_inrange_witness :
    0 < totalOf ⟨0, 0, 0, 0, 0, 0⟩ ∧
    ∃ r g b : ℤ, compositeColor ⟨0, 0, 0, 0, 0, 0⟩ = Except.ok (r, g, b) ∧
      0 ≤ r ∧ r ≤ 255 ∧ 0 ≤ g ∧ g ≤ 255 ∧ 0 ≤ b ∧ b ≤ 255 :=
  compositeColor_ok_inrange ⟨0, 0, 0, 0, 0, 0⟩ le_rfl le_rfl le_rfl le_rfl le_rfl le_rfl

/-- C9: for every column whose looked-up magnitude is strictly below the
quiet threshold 8, the bar-pass body emits exactly the quiet-marker writes,
regardless of the six band magnitude arrays, and no blended color is
computed (the output is identical for any two band inputs). -/
theorem barColumn_quiet_independent (origAmps : List ℚ) (rb rb' : BandArrays)
    (height x idx : ℤ) (amp : ℚ) (hlook : npGet origAmps idx = some amp)
    (hq : amp < QUIET_THRESHOLD) :
    barColumn origAmps rb height x idx =
      Except.ok ((quietMarkerWrites height).map (fun p => (x, p.1, p.2))) ∧
    barColumn origAmps rb height x idx = barColumn origAmps rb' height x idx := by
  have h1 : ∀ rbx : BandArrays, barColumn origAmps rbx height x idx =
      Except.ok ((quietMarkerWrites height).map (fun p => (x, p.1, p.2))) := by
    intro rbx
    rw [barColumn, hlook]
    simp only [liftO, bind, Except.bind]
    rw [if_pos hq]
  exact ⟨h1 rb, (h1 rb).trans (h1 rb').symm⟩

/-- C9 witness: the theorem at amplitude 3 (below threshold) with two
different band inputs. -/
theorem barColumn_quiet_independent_witness :
    barColumn [3] exampleBands 350 0 0 =
      Except.ok ((quietMarkerWrites 350).map (fun p => ((0 : ℤ), p.1, p.2))) ∧
    barColumn [3] exampleBands 350 0 0 = barColumn [3] ⟨[], [], [], [], [], []⟩ 350 0 0 :=
  barColumn_quiet_independent [3] exampleBands ⟨[], [], [], [], [], []⟩ 350 0 0 3
    (by with_unfolding_all rfl) (by decide)

/-! ### Claim C5: absence of degenerate-input validation. -/

theorem tickPass_neg_duration (d : ℚ) (hd : d < 0) (w : ℤ) :
    tickPass d w = Except.ok [] := by
  have hidx : tickIdx d = [] := by
    rw [tickIdx]
    cases hN : (pyInt (qdiv d 30) + 2).toNat with
    | zero => rfl
    | succ n =>
      rw [List.range_succ_eq_map, List.takeWhile_cons]
      have hp : decide ((30 * ((0 : ℕ) : ℚ)) ≤ d) = false := by
        simp only [Nat.cast_zero, mul_zero, decide_eq_false_iff_not]
        linarith
      rw [hp]
      rfl
  rw [tickPass, hidx]
  rfl

/-- C5 counterexample: a render request with the degenerate duration `-5`
does not fail with any error — the full pipeline runs to completion, so no
`DegenerateInputError` validation exists before rendering. -/
theorem render_negative_duration_succeeds :
    (renderWaveform [10, 100] exampleBands (-5) 4 50).isOk = true := by
  with_unfolding_all decide

/-- C5 (amended): `render_waveform` performs no degenerate-input
validation and no `DegenerateInputError` exists.  A negative duration
draws no ticks at all and the render succeeds (identically to any other
negative duration); a zero duration fails only with a division-by-zero in
the tick pass, after the bar pass has already run; an empty magnitude
sequence fails with an index error inside the bar pass, not before
rendering begins. -/
theorem render_no_degenerate_guard (d : ℚ) (hd : d < 0) :
    (∀ w : ℤ, tickPass d w = Except.ok []) ∧
    (renderWaveform [10, 100] exampleBands d 4 50 =
      renderWaveform [10, 100] exampleBands (-1) 4 50) ∧
    (renderWaveform [10, 100] exampleBands (-1) 4 50).isOk = true ∧
    (renderWaveform [10, 100] exampleBands 0 4 50).isOk = false ∧
    (renderWaveform [] exampleBands 10 4 50).isOk = false := by
  refine ⟨tickPass_neg_duration d hd, ?_,
    by with_unfolding_all decide, by with_unfolding_all decide,
    by with_unfolding_all decide⟩
  rw [renderWaveform, renderWaveform]
  rw [tickPass_neg_duration d hd 4, tickPass_neg_duration (-1) (by norm_num) 4]

/-- C5 witness: the amended theorem at duration `-5` and width 4. -/
theorem render_no_degenerate_guard_witness :
    tickPass (-5) 4 = Except.ok [] ∧
    (renderWaveform [10, 100] exampleBands (-5) 4 50 =
      renderWaveform [10, 100] exampleBands (-1) 4 50) ∧
    (renderWaveform [10, 100] exampleBands (-1) 4 50).isOk = true :=
  ⟨(render_no_degenerate_guard (-5) (by norm_num)).1 4,
    (render_no_degenerate_guard (-5) (by norm_num)).2.1,
    (render_no_degenerate_guard (-5) (by norm_num)).2.2.1⟩

/-! ### Claim C10: the quiet-marker write set. -/

/-- C10: in the bar pass, a quiet column writes exactly the pixels
`center_y + dy` for `dy ∈ {-1, 0, 1}` that satisfy `0 ≤ y < height`, in
the quiet color, and no others; the bound is the full canvas height, not
the waveform area, so at height 46 (waveform area 1 row tall) the marker
writes into the title strip (`y = 24 < TITLE_HEIGHT`) and into the
timeline strip (`y = 26`, at or below the waveform area's bottom edge). -/
theorem quietMarkerWrites_exact_and_escape :
    (∀ (height y : ℤ) (c : Color),
      ((y, c) ∈ quietMarkerWrites height ↔
        c = QUIET_COLOR ∧
        (y = centerY height - 1 ∨ y = centerY height ∨ y = centerY height + 1) ∧
        0 ≤ y ∧ y < height)) ∧
    ((24, QUIET_COLOR) ∈ quietMarkerWrites 46 ∧ ¬ (TITLE_HEIGHT ≤ (24 : ℤ))) ∧
    ((26, QUIET_COLOR) ∈ quietMarkerWrites 46 ∧
      ¬ ((26 : ℤ) < TITLE_HEIGHT + waveformHeight 46)) := by
  refine ⟨?_, ⟨by with_unfolding_all decide, by decide⟩,
    ⟨by with_unfolding_all decide, by decide⟩⟩
  intro height y c
  simp only [quietMarkerWrites, List.mem_filterMap, List.mem_cons,
    List.mem_singleton, List.not_mem_nil, or_false]
  constructor
  · rintro ⟨dy, hdy, hif⟩
    split_ifs at hif with hb
    · rw [Option.some_inj, Prod.mk.injEq] at hif
      obtain ⟨hy, hc⟩ := hif
      rcases hdy with rfl | rfl | rfl <;>
        exact ⟨hc.symm, by omega, by omega, by omega⟩
  · rintro ⟨rfl, hdisj, h0, hh⟩
    rcases hdisj with rfl | rfl | rfl
    · refine ⟨-1, Or.inl rfl, ?_⟩
      rw [if_pos ⟨by omega, by omega⟩, Option.some_inj, Prod.mk.injEq]
      exact ⟨by omega, rfl⟩
    · refine ⟨0, Or.inr (Or.inl rfl), ?_⟩
      rw [if_pos ⟨by omega, by omega⟩, Option.some_inj, Prod.mk.injEq]
      exact ⟨by omega, rfl⟩
    · refine ⟨1, Or.inr (Or.inr rfl), ?_⟩
      rw [if_pos ⟨by omega, by omega⟩, Option.some_inj, Prod.mk.injEq]
      exact ⟨by omega, rfl⟩

end aalto
